import Mathlib

/-!
Shallow embedding of the proglog storage core (store.go, index.go):
a length-prefixed append-only record store and a fixed-width memory-mapped
offset index.  Files and mapped regions are modelled as lists of bytes
(`List Nat`), machine integers as `Nat` with explicit `% 2^w` where Go's
unsigned arithmetic wraps, and fallible operations return their error
through `Except`/`Option`.
-/

namespace Proglog

/-- Error kinds surfaced by the storage core: `eof` models Go's `io.EOF`
(end-of-data / capacity exhausted), `io` models any other I/O error. -/
inductive Err
  | eof
  | io
deriving DecidableEq, Repr

/-- Big-endian encoding of `n` into `w` bytes (the low `8*w` bits of `n`),
modelling `encoding/binary.BigEndian.PutUintXX`. -/
def toBytesBE : Nat → Nat → List Nat
  | 0, _ => []
  | w + 1, n => toBytesBE w (n / 256) ++ [n % 256]

/-- Big-endian decoding of a byte list, modelling
`encoding/binary.BigEndian.UintXX`. -/
def fromBytesBE (l : List Nat) : Nat :=
  l.foldl (fun acc b => acc * 256 + b) 0

theorem length_toBytesBE (w n : Nat) : (toBytesBE w n).length = w := by
  induction w generalizing n with
  | zero => rfl
  | succ w ih => simp [toBytesBE, ih]

/-- Splitting a natural-number modulus across a product. -/
theorem mod_mul_decomp (n a b : Nat) :
    n % (a * b) = a * (n / a % b) + n % a := by
  conv_lhs => rw [← Nat.div_add_mod (n % (a * b)) a]
  rw [Nat.mod_mul_right_div_self, Nat.mod_mod_of_dvd _ (dvd_mul_right a b)]

theorem fromBytesBE_toBytesBE (w n : Nat) :
    fromBytesBE (toBytesBE w n) = n % 256 ^ w := by
  induction w generalizing n with
  | zero => simp [toBytesBE, fromBytesBE, Nat.mod_one]
  | succ w ih =>
    have h : fromBytesBE (toBytesBE w (n / 256) ++ [n % 256])
        = fromBytesBE (toBytesBE w (n / 256)) * 256 + n % 256 := by
      simp [fromBytesBE, List.foldl_append]
    show fromBytesBE (toBytesBE w (n / 256) ++ [n % 256]) = _
    rw [h, ih, pow_succ', mod_mul_decomp]
    omega

/-- Reading `len` bytes starting at byte offset `start`, modelling a Go
slice expression `b[start : start+len]` (and `File.ReadAt`'s copy). -/
def slice (l : List Nat) (start len : Nat) : List Nat :=
  (l.drop start).take len

/-- Overwriting the bytes of `l` at offset `start` with `bs`, modelling an
in-place write into a memory-mapped byte region. -/
def writeAt (l : List Nat) (start : Nat) (bs : List Nat) : List Nat :=
  l.take start ++ bs ++ l.drop (start + bs.length)

theorem length_writeAt (l bs : List Nat) (start : Nat)
    (h : start + bs.length ≤ l.length) :
    (writeAt l start bs).length = l.length := by
  simp [writeAt]
  omega

/-! ## Store (store.go)

`lenWidth = 8` is the number of bytes used for a record's length prefix.
A `Store` holds the on-disk file contents, the contents of the
`bufio.Writer` buffer not yet flushed to the file, and the running `size`
counter (`uint64`). -/

/-- Number of bytes used to store a record's length (store.go `lenWidth`). -/
def lenWidth : Nat := 8

structure Store where
  file : List Nat
  buf : List Nat
  size : Nat
deriving DecidableEq, Repr

/-- Outcome of one underlying buffered write: either it succeeds in full, or
it fails after buffering some partial junk bytes. -/
inductive WriteOutcome
  | ok
  | fail (junkBytes : List Nat)

/-- Model of `newStore`: the `size` counter is recovered from the file's
current length (`os.Stat`) and the write buffer starts empty. -/
def newStore (f : List Nat) : Store :=
  ⟨f, [], f.length⟩

/-- Model of `store.Append` with explicit outcomes for the two fallible
buffered writes (length prefix, then payload).  On success it buffers the
8-byte big-endian length of `p` followed by `p`, adds `8 + len(p)` to `size`
(wrapping as `uint64`), and returns `(bytesWritten, startPosition)`.  On
failure it returns before touching `size`, exactly as the Go code does. -/
def appendR (s : Store) (p : List Nat) (o1 o2 : WriteOutcome) :
    Store × Except Err (Nat × Nat) :=
  match o1 with
  | .fail junk => (⟨s.file, s.buf ++ junk, s.size⟩, .error .io)
  | .ok =>
    let buf1 := s.buf ++ toBytesBE lenWidth p.length
    match o2 with
    | .fail junk => (⟨s.file, buf1 ++ junk, s.size⟩, .error .io)
    | .ok =>
      let w := p.length + lenWidth
      (⟨s.file, buf1 ++ p, (s.size + w) % 2 ^ 64⟩, .ok (w, s.size))

/-- Model of `store.Append` on the success path. -/
def append (s : Store) (p : List Nat) : Store × Nat × Nat :=
  match appendR s p .ok .ok with
  | (s', .ok r) => (s', r)
  | (s', .error _) => (s', 0, 0)

/-- Model of `store.Read`: flush the buffer into the file, read the 8-byte
length prefix at `pos`, then read that many payload bytes at `pos + 8`.
Each `File.ReadAt` fails (short read / negative `int64` offset) when the
requested range does not lie inside the flushed file. -/
def readStore (s : Store) (pos : Nat) : Store × Except Err (List Nat) :=
  if 2 ^ 63 ≤ pos ∨ (s.file ++ s.buf).length < pos + lenWidth then
    (⟨s.file ++ s.buf, [], s.size⟩, .error .io)
  else if 2 ^ 63 ≤ pos + lenWidth ∨
      (s.file ++ s.buf).length <
        pos + lenWidth + fromBytesBE (slice (s.file ++ s.buf) pos lenWidth) then
    (⟨s.file ++ s.buf, [], s.size⟩, .error .io)
  else
    (⟨s.file ++ s.buf, [], s.size⟩,
      .ok (slice (s.file ++ s.buf) (pos + lenWidth)
        (fromBytesBE (slice (s.file ++ s.buf) pos lenWidth))))

/-! ## Index (index.go)

An `Index` holds the memory-mapped byte region (`mmap`, here `data`) and the
running `size` counter (`uint64`).  The mapped region is `MAP_SHARED` with
the backing file, so at any point the file's first `len(mmap)` bytes are the
mapped bytes; `newIndex` truncates the backing file to the configured
maximum capacity (`c.Segment.MaxIndexBytes`, here `cap`) before mapping. -/

/-- Width in bytes of a record offset in an index entry (index.go `offWidth`). -/
def offWidth : Nat := 4

/-- Width in bytes of a store position in an index entry (index.go `posWidth`). -/
def posWidth : Nat := 8

/-- Total width in bytes of one index entry (index.go `totWidth`). -/
def totWidth : Nat := offWidth + posWidth

structure Index where
  data : List Nat
  size : Nat
deriving DecidableEq, Repr

/-- Result of `os.Truncate(name, cap)` on a file with contents `l`: the file
is cut or zero-extended to exactly `cap` bytes. -/
def padTrunc (l : List Nat) (cap : Nat) : List Nat :=
  l.take cap ++ List.replicate (cap - l.length) 0

theorem length_padTrunc (l : List Nat) (cap : Nat) :
    (padTrunc l cap).length = cap := by
  simp [padTrunc]
  omega

/-- Model of `newIndex`: `size` is recovered from the file's current length
(`os.Stat`), then the file is truncated to the configured maximum index
bytes and the whole file is memory-mapped. -/
def newIndex (content : List Nat) (cap : Nat) : Index :=
  ⟨padTrunc content cap, content.length⟩

/-- Encoded bytes of one index entry: 4-byte big-endian offset followed by
8-byte big-endian position. -/
def encEntry (e : Nat × Nat) : List Nat :=
  toBytesBE offWidth e.1 ++ toBytesBE posWidth e.2

/-- Model of `index.Write`: fails with `io.EOF` when the mapped region has
no room for another 12-byte entry, otherwise writes the encoded entry at
byte `size` and advances `size` by 12.  The index is returned alongside the
error so that the failure path visibly leaves it unchanged. -/
def write (i : Index) (off pos : Nat) : Index × Option Err :=
  if i.data.length < i.size + totWidth then (i, some .eof)
  else (⟨writeAt i.data i.size (encEntry (off, pos)), i.size + totWidth⟩, none)

/-- Sequencing of `index.Write` calls, stopping at the first failure. -/
def writeAll (i : Index) : List (Nat × Nat) → Index × Option Err
  | [] => (i, none)
  | e :: es =>
    match write i e.1 e.2 with
    | (i', none) => writeAll i' es
    | (i', some e) => (i', some e)

/-- Decoding of the entry at entry-index `out`, the tail of `index.Read`:
`pos = out * 12`; fails with `io.EOF` when the entry lies past `size`. -/
def entryAt (i : Index) (out : Nat) : Except Err (Nat × Nat) :=
  if i.size < out * totWidth + totWidth then .error .eof
  else .ok (fromBytesBE (slice i.data (out * totWidth) offWidth),
            fromBytesBE (slice i.data (out * totWidth + offWidth) posWidth))

/-- Model of `index.Read`: an empty index always fails with `io.EOF`; the
sentinel `-1` resolves to `uint32(size/12 - 1)` computed in wrapping
`uint64` arithmetic then cast to `uint32`; any other argument is cast with
`uint32(in)`, i.e. reduced modulo `2^32`. -/
def readIdx (i : Index) (k : Int) : Except Err (Nat × Nat) :=
  if i.size = 0 then .error .eof
  else
    entryAt i
      (if k = -1 then (i.size / totWidth + (2 ^ 64 - 1)) % 2 ^ 64 % 2 ^ 32
       else (k % (2 ^ 32 : Int)).toNat)

/-- Observable outcome of `index.Close`: the error returned to the caller,
the resulting backing-file contents, and whether `file.Close` was reached. -/
structure CloseResult where
  err : Option Err
  fileData : List Nat
  closed : Bool
deriving DecidableEq, Repr

/-- Model of `index.Close` with explicit outcomes for the three fallible
calls, in source order: `mmap.Sync`, `file.Sync`, `file.Truncate(size)`,
then `file.Close`.  Note the source's truncate-failure branch literally
returns `nil` (index.go line 75), so no error is surfaced and the file is
neither truncated nor closed on that path. -/
def closeR (i : Index) (syncOk fileSyncOk truncOk : Bool) : CloseResult :=
  if ¬syncOk then ⟨some .io, i.data, false⟩
  else if ¬fileSyncOk then ⟨some .io, i.data, false⟩
  else if ¬truncOk then ⟨none, i.data, false⟩
  else ⟨none, i.data.take i.size, true⟩

/-- Backing-file contents after a successful `index.Close`: the mapped bytes
truncated down to the true used size. -/
def closeFile (i : Index) : List Nat :=
  i.data.take i.size

/-! ## Helper lemmas -/

theorem totWidth_def : totWidth = 12 := rfl

theorem offWidth_def : offWidth = 4 := rfl

theorem lenWidth_def : lenWidth = 8 := rfl

/-- Concatenated encoding of a list of index entries. -/
def blob : List (Nat × Nat) → List Nat
  | [] => []
  | e :: es => encEntry e ++ blob es

theorem length_encEntry (e : Nat × Nat) : (encEntry e).length = totWidth := by
  simp [encEntry, length_toBytesBE, offWidth, posWidth, totWidth]

theorem length_blob (es : List (Nat × Nat)) :
    (blob es).length = totWidth * es.length := by
  induction es with
  | nil => rfl
  | cons e es ih =>
    simp [blob, List.length_append, length_encEntry, ih, List.length_cons]
    ring

theorem blob_drop : ∀ (es : List (Nat × Nat)) (j : Nat) (tail : List Nat),
    j ≤ es.length →
    (blob es ++ tail).drop (totWidth * j) = blob (es.drop j) ++ tail
  | _, 0, _, _ => by simp
  | [], j + 1, _, h => by simp at h
  | e :: es, j + 1, tail, h => by
    have h12 : totWidth * (j + 1) = (encEntry e).length + totWidth * j := by
      rw [length_encEntry]; ring
    rw [blob, List.append_assoc, h12, List.drop_append]
    exact blob_drop es j tail (by simpa using h)

theorem writeAll_spec : ∀ (es : List (Nat × Nat)) (i : Index),
    i.size + totWidth * es.length ≤ i.data.length →
    writeAll i es =
      (⟨i.data.take i.size ++ blob es ++ i.data.drop (i.size + totWidth * es.length),
        i.size + totWidth * es.length⟩, none)
  | [], i, h => by
    cases i with
    | mk d s => simp [writeAll, blob]
  | e :: es, i, h => by
    cases i with
    | mk d s =>
      rw [totWidth_def] at h
      simp only [List.length_cons] at h
      have hsd : s ≤ d.length := by omega
      have hsd12 : s + 12 ≤ d.length := by omega
      have hcond : ¬((⟨d, s⟩ : Index).data.length < (⟨d, s⟩ : Index).size + totWidth) := by
        show ¬(d.length < s + totWidth)
        rw [totWidth_def]; omega
      have hw : write ⟨d, s⟩ e.1 e.2 =
          (⟨writeAt d s (encEntry (e.1, e.2)), s + totWidth⟩, none) := by
        unfold write
        rw [if_neg hcond]
      have hlen1 : (writeAt d s (encEntry (e.1, e.2))).length = d.length :=
        length_writeAt _ _ _ (by rw [length_encEntry, totWidth_def]; omega)
      have ih := writeAll_spec es ⟨writeAt d s (encEntry (e.1, e.2)), s + totWidth⟩ (by
        show s + totWidth + totWidth * es.length ≤ (writeAt d s (encEntry (e.1, e.2))).length
        rw [hlen1, totWidth_def]; omega)
      have hstep : writeAll ⟨d, s⟩ (e :: es) =
          writeAll ⟨writeAt d s (encEntry (e.1, e.2)), s + totWidth⟩ es := by
        rw [writeAll, hw]
      have hA : (writeAt d s (encEntry (e.1, e.2))).take (s + totWidth)
          = d.take s ++ encEntry (e.1, e.2) := by
        rw [writeAt]
        exact List.take_left' (by
          simp [List.length_append, List.length_take, length_encEntry]
          omega)
      have hB : (writeAt d s (encEntry (e.1, e.2))).drop (s + totWidth + totWidth * es.length)
          = d.drop (s + totWidth + totWidth * es.length) := by
        rw [writeAt]
        have h1 : (d.take s ++ encEntry (e.1, e.2)).length = s + totWidth := by
          simp [List.length_append, List.length_take, length_encEntry]
          omega
        have h2 : s + totWidth + totWidth * es.length
            = (d.take s ++ encEntry (e.1, e.2)).length + totWidth * es.length := by
          rw [h1]
        rw [h2, List.drop_append, List.drop_drop, length_encEntry, h1]
      have harith : s + totWidth + totWidth * es.length
          = s + totWidth * (e :: es).length := by
        simp only [List.length_cons, totWidth_def]
        omega
      rw [hstep, ih]
      dsimp only
      rw [hA, hB, harith]
      rw [show blob (e :: es) = encEntry (e.1, e.2) ++ blob es from rfl,
        ← List.append_assoc]

theorem writeAll_fresh (es : List (Nat × Nat)) (cap : Nat)
    (h : totWidth * es.length ≤ cap) :
    writeAll (newIndex [] cap) es =
      (⟨blob es ++ List.replicate (cap - totWidth * es.length) 0,
        totWidth * es.length⟩, none) := by
  have hd : (newIndex [] cap).data = List.replicate cap 0 := by
    simp [newIndex, padTrunc]
  have hs : (newIndex [] cap).size = 0 := rfl
  have h0 := writeAll_spec es (newIndex [] cap) (by
    rw [hs, hd]
    simp [List.length_replicate]
    omega)
  rw [h0, hd, hs]
  simp [List.drop_replicate]

theorem entryAt_blob (es : List (Nat × Nat)) (pad : List Nat) (sz j : Nat)
    (hj : j < es.length) (hsz : ¬sz < j * totWidth + totWidth) :
    entryAt ⟨blob es ++ pad, sz⟩ j =
      .ok ((es.get ⟨j, hj⟩).1 % 2 ^ 32, (es.get ⟨j, hj⟩).2 % 2 ^ 64) := by
  have hdrop : (blob es ++ pad).drop (j * totWidth) = blob (es.drop j) ++ pad := by
    rw [Nat.mul_comm]
    exact blob_drop es j pad (Nat.le_of_lt hj)
  have hcons : es.drop j = es.get ⟨j, hj⟩ :: es.drop (j + 1) := by
    rw [List.get_eq_getElem]
    exact List.drop_eq_getElem_cons hj
  have hshape : blob (es.drop j) ++ pad
      = toBytesBE offWidth (es.get ⟨j, hj⟩).1 ++
          (toBytesBE posWidth (es.get ⟨j, hj⟩).2 ++ (blob (es.drop (j + 1)) ++ pad)) := by
    rw [hcons]
    simp [blob, encEntry, List.append_assoc]
  have hslice1 : slice (blob es ++ pad) (j * totWidth) offWidth
      = toBytesBE offWidth (es.get ⟨j, hj⟩).1 := by
    rw [slice, hdrop, hshape]
    exact List.take_left' (length_toBytesBE _ _)
  have hslice2 : slice (blob es ++ pad) (j * totWidth + offWidth) posWidth
      = toBytesBE posWidth (es.get ⟨j, hj⟩).2 := by
    rw [slice, ← List.drop_drop, hdrop, hshape,
      List.drop_left' (length_toBytesBE _ _)]
    exact List.take_left' (length_toBytesBE _ _)
  rw [entryAt, if_neg hsz]
  show Except.ok (fromBytesBE (slice (blob es ++ pad) (j * totWidth) offWidth),
    fromBytesBE (slice (blob es ++ pad) (j * totWidth + offWidth) posWidth)) = _
  rw [hslice1, hslice2, fromBytesBE_toBytesBE, fromBytesBE_toBytesBE]
  norm_num [offWidth_def, posWidth]

theorem readIdx_writeAll_ofNat (es : List (Nat × Nat)) (cap : Nat)
    (hcap : totWidth * es.length ≤ cap) (j : Nat) (hj : j < es.length)
    (hj32 : j < 2 ^ 32) :
    readIdx (writeAll (newIndex [] cap) es).1 (j : Int) =
      .ok ((es.get ⟨j, hj⟩).1 % 2 ^ 32, (es.get ⟨j, hj⟩).2 % 2 ^ 64) := by
  rw [writeAll_fresh es cap hcap]
  dsimp only
  rw [readIdx]
  dsimp only
  rw [if_neg (by rw [totWidth_def]; omega : ¬totWidth * es.length = 0)]
  rw [if_neg (by omega : ¬((j : Int) = -1))]
  rw [show (((j : Int) % (2 ^ 32 : Int)).toNat) = j from by omega]
  exact entryAt_blob es _ _ j hj (by rw [totWidth_def]; omega)

theorem readIdx_writeAll_sentinel (es : List (Nat × Nat)) (cap : Nat)
    (hcap : totWidth * es.length ≤ cap) (hne : 1 ≤ es.length)
    (hlen32 : es.length ≤ 2 ^ 32) :
    readIdx (writeAll (newIndex [] cap) es).1 (-1)
      = entryAt (writeAll (newIndex [] cap) es).1 (es.length - 1) := by
  rw [writeAll_fresh es cap hcap]
  dsimp only
  rw [readIdx]
  dsimp only
  rw [if_neg (by rw [totWidth_def]; omega : ¬totWidth * es.length = 0)]
  rw [if_pos (show (-1 : Int) = -1 from rfl)]
  have hx : (totWidth * es.length / totWidth + (2 ^ 64 - 1)) % 2 ^ 64 % 2 ^ 32
      = es.length - 1 := by
    rw [Nat.mul_div_cancel_left es.length
      (by rw [totWidth_def]; omega : 0 < totWidth)]
    omega
  rw [hx]

/-! ## Claim theorems -/

/-- Byte contents of the string literal `"hello world"`. -/
def helloWorldBytes : List Nat :=
  [104, 101, 108, 108, 111, 32, 119, 111, 114, 108, 100]

/-- Byte contents of the string literal `"foo"`. -/
def fooBytes : List Nat := [102, 111, 111]

/-- C1: store round-trip.  For every payload `p`, appending `p` to a
well-formed store (one whose `size` counter equals the bytes held in file
plus buffer, as established by `newStore` and preserved by `Append`) and
then reading at the returned position yields exactly `p`, even though the
appended bytes still sit in the write buffer: `Read` flushes the buffer
before reading. -/
theorem store_append_read_roundtrip (s : Store) (p : List Nat)
    (hwf : s.size = s.file.length + s.buf.length)
    (hov : s.size + lenWidth + p.length < 2 ^ 63) :
    (readStore (append s p).1 (append s p).2.2).2 = .ok p := by
  have happ : append s p =
      (⟨s.file, s.buf ++ toBytesBE lenWidth p.length ++ p,
        (s.size + (p.length + lenWidth)) % 2 ^ 64⟩, p.length + lenWidth, s.size) := rfl
  rw [happ]
  dsimp only
  have hlenT : (toBytesBE lenWidth p.length).length = lenWidth := length_toBytesBE _ _
  have hAB : (s.file ++ s.buf).length = s.size := by
    rw [hwf]; simp [List.length_append]
  have hflen : (s.file ++ (s.buf ++ toBytesBE lenWidth p.length ++ p)).length
      = s.size + lenWidth + p.length := by
    simp [List.length_append, hlenT]
    omega
  have hf : s.file ++ (s.buf ++ toBytesBE lenWidth p.length ++ p)
      = (s.file ++ s.buf) ++ (toBytesBE lenWidth p.length ++ p) := by
    simp [List.append_assoc]
  have hdrop : (s.file ++ (s.buf ++ toBytesBE lenWidth p.length ++ p)).drop s.size
      = toBytesBE lenWidth p.length ++ p := by
    rw [hf]
    exact List.drop_left' hAB
  have hslice1 : slice (s.file ++ (s.buf ++ toBytesBE lenWidth p.length ++ p))
      s.size lenWidth = toBytesBE lenWidth p.length := by
    rw [slice, hdrop]
    exact List.take_left' hlenT
  have hn : fromBytesBE (slice (s.file ++ (s.buf ++ toBytesBE lenWidth p.length ++ p))
      s.size lenWidth) = p.length := by
    rw [hslice1, fromBytesBE_toBytesBE]
    have hp : p.length < 256 ^ lenWidth := by
      rw [show (256 : Nat) ^ lenWidth = 2 ^ 64 from by norm_num [lenWidth]]
      rw [lenWidth_def] at hov
      omega
    exact Nat.mod_eq_of_lt hp
  have hslice2 : slice (s.file ++ (s.buf ++ toBytesBE lenWidth p.length ++ p))
      (s.size + lenWidth) p.length = p := by
    rw [slice, ← List.drop_drop, hdrop, List.drop_left' hlenT, List.take_length]
  rw [readStore]
  dsimp only
  rw [if_neg (by
    rw [hflen]
    rw [lenWidth_def] at hov ⊢
    omega)]
  rw [hn]
  rw [if_neg (by
    rw [hflen]
    rw [lenWidth_def] at hov ⊢
    omega)]
  rw [hslice2]

/-- C1 witness: the round-trip theorem applied to the empty store and the
payload `[1, 2, 3]`. -/
theorem store_append_read_roundtrip_witness :
    (readStore (append ⟨[], [], 0⟩ [1, 2, 3]).1
      (append ⟨[], [], 0⟩ [1, 2, 3]).2.2).2 = .ok [1, 2, 3] :=
  store_append_read_roundtrip ⟨[], [], 0⟩ [1, 2, 3] rfl (by decide)

/-- C2: store Append postcondition.  A successful `Append(p)` returns
`bytesWritten = 8 + len(p)` and `position = size` before the call, and
increments `size` by `8 + len(p)`; hence the position returned for a second
append is `position1 + 8 + len(p1)`.  Concretely, appending `"hello world"`
then `"foo"` to an empty store returns `(19, 0)` then `(11, 19)`. -/
theorem store_append_returns (s : Store) (p1 p2 : List Nat)
    (hov : s.size + lenWidth + p1.length < 2 ^ 64) :
    (append s p1).2.1 = lenWidth + p1.length ∧
    (append s p1).2.2 = s.size ∧
    (append s p1).1.size = s.size + lenWidth + p1.length ∧
    (append (append s p1).1 p2).2.2 = (append s p1).2.2 + lenWidth + p1.length ∧
    (append (newStore []) helloWorldBytes).2 = (19, 0) ∧
    (append (append (newStore []) helloWorldBytes).1 fooBytes).2 = (11, 19) := by
  refine ⟨?_, rfl, ?_, ?_, rfl, rfl⟩
  · show p1.length + lenWidth = lenWidth + p1.length
    exact Nat.add_comm _ _
  · show (s.size + (p1.length + lenWidth)) % 2 ^ 64 = s.size + lenWidth + p1.length
    rw [lenWidth_def] at hov ⊢
    omega
  · show (s.size + (p1.length + lenWidth)) % 2 ^ 64 = s.size + lenWidth + p1.length
    rw [lenWidth_def] at hov ⊢
    omega

/-- C2 witness: the append-postcondition theorem applied to the store
`⟨[5], [6], 2⟩` and payloads `[9]`, `[8]`. -/
theorem store_append_returns_witness :
    (append ⟨[5], [6], 2⟩ [9]).2.2 = 2 ∧
    (append (append ⟨[5], [6], 2⟩ [9]).1 [8]).2.2 = 2 + lenWidth + 1 := by
  have h := store_append_returns ⟨[5], [6], 2⟩ [9] [8] (by decide)
  exact ⟨h.2.1, by rw [h.2.2.2.1, h.2.1]; rfl⟩

set_option maxRecDepth 100000 in
/-- C3 counterexample: the claim "Read(index, i) for i ≥ n fails with the
end-of-data kind" is false as stated.  After writing the single entry with
relative offset 0 (so n = 1), reading at the argument 2^32 (which is ≥ n)
succeeds and returns entry 0, because `index.Read` casts its argument with
`uint32(in)`, reducing it modulo 2^32. -/
theorem index_read_past_end_wrap_cex :
    readIdx (writeAll (newIndex [] 1024) [(0, 5)]).1 (2 ^ 32) = .ok (0, 5) ∧
    (Except.ok ((0 : Nat), (5 : Nat)) : Except Err (Nat × Nat))
      ≠ Except.error Err.eof :=
  ⟨rfl, fun h => Except.noConfusion h⟩

/-- C3 (amended): after writing entries with relative offsets
`0, 1, ..., n-1` (n ≥ 1, positions < 2^64, 12·n ≤ capacity, n ≤ 2^32) to a
fresh index, `Read(index, i)` returns exactly the pair written at step `i`
for every `0 ≤ i < n`, `Read(index, -1)` returns the same pair as
`Read(index, n-1)`, and `Read(index, i)` fails with the end-of-data kind for
every `n ≤ i < 2^32` (arguments ≥ 2^32 are reduced modulo 2^32 by the
`uint32` cast and may instead succeed). -/
theorem index_read_monotonic (es : List (Nat × Nat)) (cap : Nat)
    (hne : 1 ≤ es.length) (hlen32 : es.length ≤ 2 ^ 32)
    (hcap : totWidth * es.length ≤ cap)
    (hoff : ∀ (j : Nat) (hj : j < es.length), (es.get ⟨j, hj⟩).1 = j)
    (hpos : ∀ (j : Nat) (hj : j < es.length), (es.get ⟨j, hj⟩).2 < 2 ^ 64) :
    (writeAll (newIndex [] cap) es).2 = none ∧
    (∀ (j : Nat) (hj : j < es.length),
        readIdx (writeAll (newIndex [] cap) es).1 (j : Int)
          = .ok (j, (es.get ⟨j, hj⟩).2)) ∧
    readIdx (writeAll (newIndex [] cap) es).1 (-1)
      = readIdx (writeAll (newIndex [] cap) es).1 ((es.length - 1 : Nat) : Int) ∧
    (∀ (m : Nat), es.length ≤ m → m < 2 ^ 32 →
        readIdx (writeAll (newIndex [] cap) es).1 (m : Int) = .error .eof) := by
  refine ⟨by rw [writeAll_fresh es cap hcap], ?_, ?_, ?_⟩
  · intro j hj
    have hj32 : j < 2 ^ 32 := by omega
    rw [readIdx_writeAll_ofNat es cap hcap j hj hj32, hoff j hj,
      Nat.mod_eq_of_lt hj32, Nat.mod_eq_of_lt (hpos j hj)]
  · have hm1 : es.length - 1 < es.length := by omega
    have h132 : es.length - 1 < 2 ^ 32 := by omega
    have h1 := readIdx_writeAll_ofNat es cap hcap (es.length - 1) hm1 h132
    have h2 : entryAt (writeAll (newIndex [] cap) es).1 (es.length - 1)
        = .ok ((es.get ⟨es.length - 1, hm1⟩).1 % 2 ^ 32,
               (es.get ⟨es.length - 1, hm1⟩).2 % 2 ^ 64) := by
      rw [writeAll_fresh es cap hcap]
      exact entryAt_blob es _ _ _ hm1 (by rw [totWidth_def]; omega)
    rw [readIdx_writeAll_sentinel es cap hcap hne hlen32, h2, h1]
  · intro m h1 h2
    rw [writeAll_fresh es cap hcap]
    dsimp only
    rw [readIdx]
    dsimp only
    rw [if_neg (by rw [totWidth_def]; omega : ¬totWidth * es.length = 0)]
    rw [if_neg (by omega : ¬((m : Int) = -1))]
    rw [show (((m : Int) % (2 ^ 32 : Int)).toNat) = m from by omega]
    rw [entryAt]
    dsimp only
    rw [if_pos (by rw [totWidth_def]; omega :
      totWidth * es.length < m * totWidth + totWidth)]

/-- C3 witness: the amended read-back theorem applied to the single entry
`(0, 7)` with capacity 1024, read at step 0. -/
theorem index_read_monotonic_witness :
    readIdx (writeAll (newIndex [] 1024) [(0, 7)]).1 ((0 : Nat) : Int)
      = .ok (0, 7) := by
  have h := index_read_monotonic [(0, 7)] 1024 (by decide) (by decide) (by decide)
    (by
      intro j hj
      simp only [List.length_cons, List.length_nil] at hj
      interval_cases j
      rfl)
    (by
      intro j hj
      simp only [List.length_cons, List.length_nil] at hj
      interval_cases j
      show (7 : Nat) < 2 ^ 64
      decide)
  exact h.2.1 0 (by decide)

set_option maxRecDepth 100000 in
/-- C4: index Write capacity limit.  `Write` fails, with the `eof` kind and
never the generic I/O kind, exactly when `size + 12` exceeds the mapped
region's length (which `newIndex` makes equal to the configured `maxBytes`);
with `maxBytes = 1024` the first 85 writes succeed and the 86th fails. -/
theorem index_write_capacity (i : Index) (off pos cap : Nat)
    (hcap : i.data.length = cap) :
    ((write i off pos).2 = some .eof ↔ cap < i.size + totWidth) ∧
    (write i off pos).2 ≠ some .io ∧
    (writeAll (newIndex [] 1024) (List.replicate 85 (0, 0))).2 = none ∧
    (writeAll (newIndex [] 1024) (List.replicate 86 (0, 0))).2 = some .eof := by
  subst hcap
  refine ⟨?_, ?_, rfl, rfl⟩
  · rw [write]
    by_cases hc : i.data.length < i.size + totWidth
    · simp [if_pos hc, hc]
    · simp [if_neg hc, hc]
  · rw [write]
    by_cases hc : i.data.length < i.size + totWidth
    · simp [if_pos hc]
    · simp [if_neg hc]

/-- C4 witness: the capacity theorem applied to a fresh index with 24 bytes
of capacity. -/
theorem index_write_capacity_witness :
    (writeAll (newIndex [] 1024) (List.replicate 85 (0, 0))).2 = none :=
  (index_write_capacity (newIndex [] 24) 0 0 24
    (show (padTrunc [] 24).length = 24 from length_padTrunc [] 24)).2.2.1

set_option maxRecDepth 100000 in
/-- C5: restart recovery.  Writing entries (0,0) and (1,10) into a fresh
index of capacity 1024, closing it (which truncates the backing file down to
the 24 used bytes), and opening a fresh index on the resulting file with the
same configuration recovers `size = 24` from the file's true length, and
`Read(reopened, -1)` returns `(1, 10)`. -/
theorem index_restart_recovery :
    (closeFile (writeAll (newIndex [] 1024) [(0, 0), (1, 10)]).1).length = 24 ∧
    (newIndex (closeFile (writeAll (newIndex [] 1024) [(0, 0), (1, 10)]).1)
      1024).size = 24 ∧
    readIdx (newIndex (closeFile (writeAll (newIndex [] 1024) [(0, 0), (1, 10)]).1)
      1024) (-1) = .ok (1, 10) :=
  ⟨rfl, rfl, rfl⟩

/-- C7: empty-index error.  On a freshly opened index holding zero entries,
`Read` fails with the end-of-data kind regardless of the argument; in
particular at the sentinel -1 and at 0. -/
theorem index_read_empty (cap : Nat) (k : Int) :
    readIdx (newIndex [] cap) k = .error .eof ∧
    readIdx (newIndex [] cap) (-1) = .error .eof ∧
    readIdx (newIndex [] cap) 0 = .error .eof := by
  refine ⟨?_, ?_, ?_⟩ <;> simp [readIdx, newIndex]

/-- C6: error atomicity of appends.  Whenever `store.Append` fails (either
underlying buffered write fails), the store's `size` counter is unchanged,
and whenever `index.Write` fails, the index is unchanged (no partial entry
written, `size` untouched). -/
theorem storage_error_atomicity :
    (∀ (s : Store) (p : List Nat) (o1 o2 : WriteOutcome) (e : Err),
        (appendR s p o1 o2).2 = .error e → (appendR s p o1 o2).1.size = s.size) ∧
    (∀ (i : Index) (off pos : Nat) (e : Err),
        (write i off pos).2 = some e → (write i off pos).1 = i) := by
  constructor
  · intro s p o1 o2 e h
    cases o1 with
    | fail junk => rfl
    | ok =>
      cases o2 with
      | fail junk => rfl
      | ok => simp [appendR] at h
  · intro i off pos e h
    rw [write] at h ⊢
    by_cases hc : i.data.length < i.size + totWidth
    · rw [if_pos hc]
    · rw [if_neg hc] at h
      simp at h

/-- C6 witness: the atomicity theorem applied to an append whose first
buffered write fails, and to an index write on a zero-capacity index. -/
theorem storage_error_atomicity_witness :
    (appendR ⟨[], [], 0⟩ [1] (.fail [7]) .ok).1.size = 0 ∧
    (write ⟨[], 0⟩ 3 4).1 = ⟨[], 0⟩ :=
  ⟨storage_error_atomicity.1 ⟨[], [], 0⟩ [1] (.fail [7]) .ok .io rfl,
   storage_error_atomicity.2 ⟨[], 0⟩ 3 4 .eof rfl⟩

/-- Invariant of C8: the index `size` is a multiple of the 12-byte entry
width and never exceeds the length of the mapped region. -/
def indexInv (i : Index) : Prop :=
  i.size % totWidth = 0 ∧ i.size ≤ i.data.length

/-- C8: index size invariant.  Opening an index on a file whose length is a
multiple of 12 and at most the configured capacity establishes the
invariant, and `Write` preserves it on both its success and failure paths
(`Read` and `Name` do not modify the index, and `Close` leaves `size` and
the mapped region untouched, so they preserve it trivially; they are
modelled as pure functions). -/
theorem index_size_invariant :
    (∀ (content : List Nat) (cap : Nat), content.length % totWidth = 0 →
        content.length ≤ cap → indexInv (newIndex content cap)) ∧
    (∀ (i : Index) (off pos : Nat), indexInv i → indexInv (write i off pos).1) := by
  constructor
  · intro content cap h1 h2
    refine ⟨h1, ?_⟩
    show content.length ≤ (padTrunc content cap).length
    rw [length_padTrunc]
    exact h2
  · intro i off pos hinv
    rw [write]
    by_cases hc : i.data.length < i.size + totWidth
    · rw [if_pos hc]
      exact hinv
    · rw [if_neg hc]
      have h1 := hinv.1
      refine ⟨?_, ?_⟩
      · show (i.size + totWidth) % totWidth = 0
        rw [totWidth_def] at h1 ⊢
        omega
      · show i.size + totWidth ≤ (writeAt i.data i.size (encEntry (off, pos))).length
        rw [length_writeAt _ _ _ (by rw [length_encEntry]; omega)]
        omega

/-- C8 witness: the invariant theorem applied to a 12-byte file with
capacity 1024, and to a write on a fresh index of capacity 1024. -/
theorem index_size_invariant_witness :
    indexInv (newIndex (List.replicate 12 0) 1024) ∧
    indexInv (write (newIndex [] 1024) 0 0).1 :=
  ⟨index_size_invariant.1 (List.replicate 12 0) 1024 (by decide) (by decide),
   index_size_invariant.2 (newIndex [] 1024) 0 0
     (index_size_invariant.1 [] 1024 (by decide) (by decide))⟩

/-- C9: `index.Close` performs map-sync, file-sync, truncate, close, in that
order, but does not surface a truncate failure: the source's
truncate-failure branch returns `nil` (index.go line 75), so the caller sees
success (`err = none`) while the file was neither truncated nor closed.
Sync failures are surfaced as-is. -/
theorem index_close_swallows_truncate_error (i : Index) :
    closeR i true true false = ⟨none, i.data, false⟩ ∧
    closeR i true true true = ⟨none, i.data.take i.size, true⟩ ∧
    closeR i false true true = ⟨some .io, i.data, false⟩ ∧
    closeR i true false true = ⟨some .io, i.data, false⟩ :=
  ⟨rfl, rfl, rfl, rfl⟩

set_option maxRecDepth 100000 in
/-- C10 counterexample: the claim "every negative argument other than -1 is
treated as a large entry index near 2^32 (failing with end-of-data on any
capacity-bounded index)" is false: the negative argument -2^32 reduces to
entry index 0 modulo 2^32, so on an index holding entry (0, 5) the read
succeeds instead of failing. -/
theorem index_read_negative_wrap_cex :
    readIdx (writeAll (newIndex [] 1024) [(0, 5)]).1 (-(2 ^ 32)) = .ok (0, 5) ∧
    (Except.ok ((0 : Nat), (5 : Nat)) : Except Err (Nat × Nat))
      ≠ Except.error Err.eof :=
  ⟨rfl, fun h => Except.noConfusion h⟩

set_option maxRecDepth 100000 in
/-- C10 (amended): for every argument `in ≠ -1`, `index.Read` uses the entry
index `in mod 2^32` (the `uint32(in)` cast); consequently an argument
≥ 2^32 can succeed and return an earlier entry (e.g. 2^32 + 1 returns entry
1), and negative arguments in [-2^31, -2] reduce to entry indices ≥ 2^31,
failing with the end-of-data kind on any index whose `size` is at most
12·2^31 bytes — but other negative arguments (e.g. -2^32) reduce to small
entry indices and can succeed. -/
theorem index_read_argument_truncation (i : Index) (k : Int) (hk : k ≠ -1) :
    readIdx i k =
      (if i.size = 0 then .error .eof
       else entryAt i (k % (2 ^ 32 : Int)).toNat) ∧
    (-(2 ^ 31) ≤ k → k ≤ -2 → i.size ≤ totWidth * 2 ^ 31 →
      readIdx i k = .error .eof) ∧
    readIdx (writeAll (newIndex [] 1024) [(0, 0), (1, 10)]).1 (2 ^ 32 + 1)
      = .ok (1, 10) := by
  refine ⟨?_, ?_, rfl⟩
  · rw [readIdx, if_neg hk]
  · intro h1 h2 h3
    by_cases hsz : i.size = 0
    · rw [readIdx, if_pos hsz]
    · rw [readIdx, if_neg hsz, if_neg hk]
      have hout : 2 ^ 31 ≤ ((k % (2 ^ 32 : Int)).toNat) := by omega
      rw [entryAt]
      rw [if_pos (by rw [totWidth_def] at h3 ⊢; omega :
        i.size < (k % (2 ^ 32 : Int)).toNat * totWidth + totWidth)]

/-- C10 witness: the truncation theorem applied to a fresh empty index and
the argument -2. -/
theorem index_read_argument_truncation_witness :
    readIdx (newIndex [] 1024) (-2) = .error .eof :=
  (index_read_argument_truncation (newIndex [] 1024) (-2) (by decide)).2.1
    (by decide) (by decide) (by decide)

end Proglog
